import Mathlib

/-!
Verification of the physical-projection execution layer of the polars
query engine, as embedded from
`crates/polars-lazy/src/physical_plan/executors/projection_utils.rs` and
`polars/polars-lazy/polars-plan/src/dsl/meta.rs`.

Expression trees are embedded as an inductive type; physical expressions
are records pairing an optional source tree (`as_expression`) with an
evaluation function (§6 contract: `evaluate(table, state) -> column`).
Rust panics (`unwrap`, out-of-bounds indexing) are modelled by `Option`
(`none` = panic); fallible results by `Except`.  The worker pool's
`parallel_map` contract returns results in input order or the first
error, so parallel maps are embedded as sequential order-preserving
collection.
-/

set_option autoImplicit false

namespace Polars

/-- Expression trees (`Expr` in polars-plan).  `window` carries the
partition-by key list and the inner expression; `binaryExpr` stands for
the opaque compute variants with two children; `lit` for leaf literals. -/
inductive Expr where
  | column : String → Expr
  | lit : Int → Expr
  | alias : Expr → String → Expr
  | keepName : Expr → Expr
  | renameAlias : Expr → Expr
  | binaryExpr : Expr → Expr → Expr
  | window : List Expr → Expr → Expr
  deriving Repr

mutual

/-- Structural boolean equality on expression trees (the nested
occurrence of `List Expr` prevents automatic derivation). -/
def Expr.beq : Expr → Expr → Bool
  | .column a, .column b => a == b
  | .lit a, .lit b => a == b
  | .alias e a, .alias f b => Expr.beq e f && a == b
  | .keepName e, .keepName f => Expr.beq e f
  | .renameAlias e, .renameAlias f => Expr.beq e f
  | .binaryExpr a b, .binaryExpr c d => Expr.beq a c && Expr.beq b d
  | .window ps i, .window qs j => Expr.beqList ps qs && Expr.beq i j
  | _, _ => false

/-- Pointwise `Expr.beq` on lists. -/
def Expr.beqList : List Expr → List Expr → Bool
  | [], [] => true
  | a :: as, b :: bs => Expr.beq a b && Expr.beqList as bs
  | _, _ => false

end

mutual

def Expr.beq_refl : ∀ e : Expr, Expr.beq e e = true
  | .column _ => by simp [Expr.beq]
  | .lit _ => by simp [Expr.beq]
  | .alias e _ => by simp [Expr.beq, Expr.beq_refl e]
  | .keepName e => by simp [Expr.beq, Expr.beq_refl e]
  | .renameAlias e => by simp [Expr.beq, Expr.beq_refl e]
  | .binaryExpr a b => by simp [Expr.beq, Expr.beq_refl a, Expr.beq_refl b]
  | .window ps i => by simp [Expr.beq, Expr.beq_refl i, Expr.beqList_refl ps]

def Expr.beqList_refl : ∀ es : List Expr, Expr.beqList es es = true
  | [] => by simp [Expr.beqList]
  | e :: es => by simp [Expr.beqList, Expr.beq_refl e, Expr.beqList_refl es]

end

mutual

def Expr.eq_of_beq : ∀ a b : Expr, Expr.beq a b = true → a = b
  | .column _, .column _ => by simp [Expr.beq]
  | .lit _, .lit _ => by simp [Expr.beq]
  | .alias e _, .alias f _ => by
      intro h
      simp only [Expr.beq, Bool.and_eq_true, beq_iff_eq] at h
      simp [Expr.eq_of_beq e f h.1, h.2]
  | .keepName e, .keepName f => by
      intro h
      simp [Expr.eq_of_beq e f h]
  | .renameAlias e, .renameAlias f => by
      intro h
      simp [Expr.eq_of_beq e f h]
  | .binaryExpr a b, .binaryExpr c d => by
      intro h
      simp only [Expr.beq, Bool.and_eq_true] at h
      simp [Expr.eq_of_beq a c h.1, Expr.eq_of_beq b d h.2]
  | .window ps i, .window qs j => by
      intro h
      simp only [Expr.beq, Bool.and_eq_true] at h
      simp [Expr.eqList_of_beq ps qs h.1, Expr.eq_of_beq i j h.2]
  | .column _, .lit _ => by simp [Expr.beq]
  | .column _, .alias _ _ => by simp [Expr.beq]
  | .column _, .keepName _ => by simp [Expr.beq]
  | .column _, .renameAlias _ => by simp [Expr.beq]
  | .column _, .binaryExpr _ _ => by simp [Expr.beq]
  | .column _, .window _ _ => by simp [Expr.beq]
  | .lit _, .column _ => by simp [Expr.beq]
  | .lit _, .alias _ _ => by simp [Expr.beq]
  | .lit _, .keepName _ => by simp [Expr.beq]
  | .lit _, .renameAlias _ => by simp [Expr.beq]
  | .lit _, .binaryExpr _ _ => by simp [Expr.beq]
  | .lit _, .window _ _ => by simp [Expr.beq]
  | .alias _ _, .column _ => by simp [Expr.beq]
  | .alias _ _, .lit _ => by simp [Expr.beq]
  | .alias _ _, .keepName _ => by simp [Expr.beq]
  | .alias _ _, .renameAlias _ => by simp [Expr.beq]
  | .alias _ _, .binaryExpr _ _ => by simp [Expr.beq]
  | .alias _ _, .window _ _ => by simp [Expr.beq]
  | .keepName _, .column _ => by simp [Expr.beq]
  | .keepName _, .lit _ => by simp [Expr.beq]
  | .keepName _, .alias _ _ => by simp [Expr.beq]
  | .keepName _, .renameAlias _ => by simp [Expr.beq]
  | .keepName _, .binaryExpr _ _ => by simp [Expr.beq]
  | .keepName _, .window _ _ => by simp [Expr.beq]
  | .renameAlias _, .column _ => by simp [Expr.beq]
  | .renameAlias _, .lit _ => by simp [Expr.beq]
  | .renameAlias _, .alias _ _ => by simp [Expr.beq]
  | .renameAlias _, .keepName _ => by simp [Expr.beq]
  | .renameAlias _, .binaryExpr _ _ => by simp [Expr.beq]
  | .renameAlias _, .window _ _ => by simp [Expr.beq]
  | .binaryExpr _ _, .column _ => by simp [Expr.beq]
  | .binaryExpr _ _, .lit _ => by simp [Expr.beq]
  | .binaryExpr _ _, .alias _ _ => by simp [Expr.beq]
  | .binaryExpr _ _, .keepName _ => by simp [Expr.beq]
  | .binaryExpr _ _, .renameAlias _ => by simp [Expr.beq]
  | .binaryExpr _ _, .window _ _ => by simp [Expr.beq]
  | .window _ _, .column _ => by simp [Expr.beq]
  | .window _ _, .lit _ => by simp [Expr.beq]
  | .window _ _, .alias _ _ => by simp [Expr.beq]
  | .window _ _, .keepName _ => by simp [Expr.beq]
  | .window _ _, .renameAlias _ => by simp [Expr.beq]
  | .window _ _, .binaryExpr _ _ => by simp [Expr.beq]

def Expr.eqList_of_beq : ∀ as bs : List Expr, Expr.beqList as bs = true → as = bs
  | [], [] => by simp
  | a :: as, b :: bs => by
      intro h
      simp only [Expr.beqList, Bool.and_eq_true] at h
      simp [Expr.eq_of_beq a b h.1, Expr.eqList_of_beq as bs h.2]
  | [], _ :: _ => by simp [Expr.beqList]
  | _ :: _, [] => by simp [Expr.beqList]

end

instance : DecidableEq Expr := fun a b =>
  decidable_of_iff (Expr.beq a b = true)
    ⟨Expr.eq_of_beq a b, fun h => h ▸ Expr.beq_refl a⟩

mutual

/-- All nodes of an expression tree in depth-first preorder: the order in
which `Expr::into_iter()` yields them (root first, then the subtrees).
For a window node the partition-by subtrees come before the inner
expression. -/
def Expr.nodesList : Expr → List Expr
  | .column s => [.column s]
  | .lit n => [.lit n]
  | .alias e s => .alias e s :: e.nodesList
  | .keepName e => .keepName e :: e.nodesList
  | .renameAlias e => .renameAlias e :: e.nodesList
  | .binaryExpr a b => .binaryExpr a b :: (a.nodesList ++ b.nodesList)
  | .window pby inner => .window pby inner :: (Expr.nodesListMany pby ++ inner.nodesList)

/-- Concatenated preorder node lists of a list of trees. -/
def Expr.nodesListMany : List Expr → List Expr
  | [] => []
  | e :: es => e.nodesList ++ Expr.nodesListMany es

end

/-- Does this node match `Expr::Window { .. }`. -/
def Expr.isWindow : Expr → Bool
  | .window _ _ => true
  | _ => false

/-- The partition-by key list of the first window node encountered in a
depth-first scan of the tree (`for e in e.into_iter() { if let
Expr::Window { partition_by, .. } ... break }`); `none` when the tree
contains no window node. -/
def windowKey (e : Expr) : Option (List Expr) :=
  match e.nodesList.find? Expr.isWindow with
  | some (.window pby _) => some pby
  | _ => none

/-- Number of window nodes in the tree
(`into_iter().filter(matches Window).count()`). -/
def windowCount (e : Expr) : Nat :=
  (e.nodesList.filter Expr.isWindow).length

/-- A named column of values (`Series`); only the name and the length
and contents of the value list matter to this layer. -/
structure Series where
  name : String
  values : List Int
  deriving DecidableEq, Repr

/-- Length of a series (`Series::len`). -/
def Series.len (s : Series) : Nat := s.values.length

/-- A table: an ordered sequence of columns (`DataFrame`). -/
structure DataFrame where
  columns : List Series
  deriving DecidableEq, Repr

/-- Column count of the table (`DataFrame::width`). -/
def DataFrame.width (df : DataFrame) : Nat := df.columns.length

/-- The in-place column append that bypasses invariant checks
(`DataFrame::hstack_mut_unchecked`). -/
def DataFrame.hstack_mut_unchecked (df : DataFrame) (cols : List Series) : DataFrame :=
  ⟨df.columns ++ cols⟩

/-- Truncating the column vector back to a given width
(`df.get_columns_mut().truncate(width)`). -/
def DataFrame.truncate_columns (df : DataFrame) (w : Nat) : DataFrame :=
  ⟨df.columns.take w⟩

/-- Error values produced by this layer (`PolarsError`). -/
inductive PError where
  | duplicate : String → PError
  | lengthMismatch : Nat → Nat → PError
  | computeError : String → PError
  deriving DecidableEq, Repr

/-- Sequential collection of fallible results in input order, stopping
at the first error: the semantics of `collect::<PolarsResult<Vec<_>>>()`
on an iterator, and — per the worker-pool contract (§6: ordered results
or first error) — of the same collect on a parallel iterator. -/
def collectE {α β : Type} : List α → (α → Except PError β) → Except PError (List β)
  | [], _ => .ok []
  | a :: as, f =>
    match f a with
    | .error e => .error e
    | .ok b =>
      match collectE as f with
      | .error e => .error e
      | .ok bs => .ok (b :: bs)

/-- The first scan loop of `check_expand_literals`: over the columns it
accumulates `df_height` (running maximum length) and `all_equal_len`
(every length equals the first column's length), and checks each name
against the set of names already seen, failing with a duplicate-name
error at the first repeat.  `seen` carries the names inserted so far. -/
def scanLoop (firstLen : Nat) : List Series → List String → Nat → Bool →
    Except PError (Nat × Bool)
  | [], _, dfHeight, allEqual => .ok (dfHeight, allEqual)
  | s :: rest, seen, dfHeight, allEqual =>
    let len := s.len
    let dfHeight := max dfHeight len
    let allEqual := allEqual && (len == firstLen)
    if s.name ∈ seen then .error (.duplicate s.name)
    else scanLoop firstLen rest (s.name :: seen) dfHeight allEqual

/-- The broadcasting closure of `check_expand_literals`: a length-1
column is expanded by repeating its value at index 0
(`new_from_index(0, df_height)`) when `df_height > 1`; a column whose
length equals `df_height` or 0 passes through; any other length is a
length-mismatch error naming that length and `df_height`. -/
def expandOne (dfHeight : Nat) (s : Series) : Except PError Series :=
  if s.len == 1 && decide (dfHeight > 1) then
    .ok ⟨s.name, List.replicate dfHeight s.values.headI⟩
  else if s.len == dfHeight || s.len == 0 then
    .ok s
  else
    .error (.lengthMismatch s.len dfHeight)

/-- The output assembler `check_expand_literals`.  The outer `Option` is
`none` exactly when the Rust function panics: `selected_columns[0]` is
an out-of-bounds index on an empty input. -/
def check_expand_literals (selected : List Series) (zero_length : Bool) :
    Option (Except PError DataFrame) :=
  match selected with
  | [] => none
  | s0 :: _ =>
    some (
      match scanLoop s0.len selected [] 0 true with
      | .error e => .error e
      | .ok (dfHeight, allEqual) =>
        match (if !allEqual then collectE selected (expandOne dfHeight)
               else .ok selected) with
        | .error e => .error e
        | .ok cols =>
          let df : DataFrame := ⟨cols⟩
          if zero_length then
            match (df.columns.map Series.len).min? with
            | some m => .ok ⟨df.columns.map (fun s => ⟨s.name, s.values.take m⟩)⟩
            | none => .ok df
          else .ok df)

/-- Modelled from the spec: the `ExecutionState` type lives outside the
sources under review (§4.3): it holds the window-result cache, keyed by
partition signature, and the two evaluation flags
`{has_window_function, cache_window_results}`. -/
structure ExecutionState where
  windowCache : List (String × Series)
  hasWindowFunction : Bool
  cacheWindow : Bool
  deriving DecidableEq, Repr

/-- Modelled from the spec (§4.3): `split()` derives a child state for
isolated partition-group evaluation, sharing configuration but starting
with an empty cache. -/
def ExecutionState.split (st : ExecutionState) : ExecutionState :=
  { st with windowCache := [] }

/-- Modelled from the spec (§4.3): `insert_has_window_function_flag`. -/
def ExecutionState.insertHasWindowFunctionFlag (st : ExecutionState) : ExecutionState :=
  { st with hasWindowFunction := true }

/-- Modelled from the spec (§4.3): `insert_cache_window_flag`. -/
def ExecutionState.insertCacheWindowFlag (st : ExecutionState) : ExecutionState :=
  { st with cacheWindow := true }

/-- Modelled from the spec (§4.3): `remove_cache_window_flag`. -/
def ExecutionState.removeCacheWindowFlag (st : ExecutionState) : ExecutionState :=
  { st with cacheWindow := false }

/-- Modelled from the spec (§4.3): `clear_window_expr_cache` empties the
window-result cache. -/
def ExecutionState.clearWindowExprCache (st : ExecutionState) : ExecutionState :=
  { st with windowCache := [] }

/-- A lowered physical expression (§6 contract): an optional
back-reference to its source tree (`as_expression()`) and the evaluation
capability `evaluate(table, state) -> column`.  Evaluation reads the
state (flags, cache) but, per the §6 boundary, its observable result is
the produced column. -/
structure PhysicalExpr where
  sourceExpr : Option Expr
  eval : DataFrame → ExecutionState → Except PError Series

/-- The pure data-parallel evaluator `run_exprs_par`: a parallel map of
every expression to its result column, collected in input order
(ordered results or first error per the worker-pool contract). -/
def run_exprs_par (df : DataFrame) (exprs : List PhysicalExpr)
    (state : ExecutionState) : Except PError (List Series) :=
  collectE exprs (fun e => e.eval df state)

/-- Insertion into the window-group bucket list: the entry joins the
first bucket whose key equals `k` (`windows.iter_mut().find(...)`), and
a new bucket with key `k` is appended at the end when none matches. -/
def addToWindows (ws : List (List Expr × List (Nat × PhysicalExpr)))
    (k : List Expr) (entry : Nat × PhysicalExpr) :
    List (List Expr × List (Nat × PhysicalExpr)) :=
  match ws with
  | [] => [(k, [entry])]
  | (k0, es) :: rest =>
    if k0 = k then (k0, es ++ [entry]) :: rest
    else (k0, es) :: addToWindows rest k entry

/-- The partitioning loop of `execute_projection_cached_window_fns`:
each expression, tagged with its 1-based position, goes either into the
bucket keyed by the partition-by list of the first window node of its
source tree, or into the plain (`other`) list.  `none` models the panic
of `phys.as_expression().unwrap()` on an expression without a source
tree.  The group key is the partition-by list itself; the source
compares `format!("{:?}", partition_by.as_slice())` strings, and two key
lists are structurally identical exactly when their debug strings are
equal. -/
def partitionGo : List PhysicalExpr → Nat →
    List (List Expr × List (Nat × PhysicalExpr)) → List (Nat × PhysicalExpr) →
    Option (List (List Expr × List (Nat × PhysicalExpr)) × List (Nat × PhysicalExpr))
  | [], _, ws, os => some (ws, os)
  | p :: rest, index, ws, os =>
    match p.sourceExpr with
    | none => none
    | some e =>
      match windowKey e with
      | some k => partitionGo rest (index + 1) (addToWindows ws k (index + 1, p)) os
      | none => partitionGo rest (index + 1) ws (os ++ [(index + 1, p)])

/-- Partition an expression list into window-group buckets and the plain
list, as at the top of `execute_projection_cached_window_fns`. -/
def partitionWindows (exprs : List PhysicalExpr) :
    Option (List (List Expr × List (Nat × PhysicalExpr)) × List (Nat × PhysicalExpr)) :=
  partitionGo exprs 0 [] []

/-- The inner loop over one window group: before each expression's
evaluation the cache flag is re-derived (enabled exactly when that
expression's source tree contains exactly one window node), the
expression is evaluated against the current state, and its tagged result
collected; an evaluation error propagates immediately.  `none` models
the `as_expression().unwrap()` panic.  The second component records the
value of the cache-window flag in force at each evaluation, in order;
this observation is dropped by the callers. -/
def evalGroupLoop (df : DataFrame) : ExecutionState → List (Nat × PhysicalExpr) →
    Option (Except PError (List (Nat × Series)) × List Bool)
  | _, [] => some (.ok [], [])
  | st, (index, e) :: rest =>
    match e.sourceExpr with
    | none => none
    | some src =>
      let st := if windowCount src == 1 then st.insertCacheWindowFlag
                else st.removeCacheWindowFlag
      match e.eval df st with
      | .error err => some (.error err, [st.cacheWindow])
      | .ok s =>
        match evalGroupLoop df st rest with
        | none => none
        | some (.error err, tr) => some (.error err, st.cacheWindow :: tr)
        | some (.ok results, tr) => some (.ok ((index, s) :: results), st.cacheWindow :: tr)

/-- Evaluation of one window group in
`execute_projection_cached_window_fns`: a state is split off the parent,
marked as having a window function, the cache flag defaulted (disabled
for a singleton group, enabled otherwise), and the group evaluated
sequentially by `evalGroupLoop`.  The trace component prepends the
defaulted flag value to the per-evaluation flag values. -/
def evalWindowGroup (df : DataFrame) (parent : ExecutionState)
    (group : List (Nat × PhysicalExpr)) :
    Option (Except PError (List (Nat × Series)) × List Bool) :=
  let st := parent.split.insertHasWindowFunctionFlag
  let st := if group.length == 1 then st.removeCacheWindowFlag
            else st.insertCacheWindowFlag
  match evalGroupLoop df st group with
  | none => none
  | some (res, tr) => some (res, st.cacheWindow :: tr)

/-- The sequential loop over the window-group buckets (`for partition in
windows`): each group is evaluated against its own state split off the
parent, and the first error aborts the whole call. -/
def evalAllGroups (df : DataFrame) (state : ExecutionState) :
    List (List Expr × List (Nat × PhysicalExpr)) →
    Option (Except PError (List (Nat × Series)))
  | [] => some (.ok [])
  | (_, group) :: rest =>
    match evalWindowGroup df state group with
    | none => none
    | some (.error e, _) => some (.error e)
    | some (.ok res, _) =>
      match evalAllGroups df state rest with
      | none => none
      | some (.error e) => some (.error e)
      | some (.ok more) => some (.ok (res ++ more))

/-- Insertion step of sorting tagged results by their position tag. -/
def insertByIdx (x : Nat × Series) : List (Nat × Series) → List (Nat × Series)
  | [] => [x]
  | y :: ys => if x.1 ≤ y.1 then x :: y :: ys else y :: insertByIdx x ys

/-- Sorting the tagged results by original position
(`sort_unstable_by_key(|tpl| tpl.0)`; the tags are pairwise distinct, so
any comparison sort produces this order). -/
def sortByIdx : List (Nat × Series) → List (Nat × Series)
  | [] => []
  | x :: xs => insertByIdx x (sortByIdx xs)

/-- The window-aware evaluator `execute_projection_cached_window_fns`:
partition into plain and window groups, evaluate the plain expressions
by parallel map against the parent state, evaluate the window groups
sequentially, then sort all tagged results by original position and
drop the tags.  `none` models a panic. -/
def execute_projection_cached_window_fns (df : DataFrame)
    (exprs : List PhysicalExpr) (state : ExecutionState) :
    Option (Except PError (List Series)) :=
  match partitionWindows exprs with
  | none => none
  | some (windows, other) =>
    match collectE other (fun en => (en.2.eval df state).map (fun s => (en.1, s))) with
    | .error e => some (.error e)
    | .ok selected =>
      match evalAllGroups df state windows with
      | none => none
      | some (.error e) => some (.error e)
      | some (.ok winResults) =>
        some (.ok ((sortByIdx (selected ++ winResults)).map Prod.snd))

/-- Modelled from the spec: the CSE temporary-name convention and
`rename_cse_tmp_series` are outside the sources under review (§4.4): a
result column whose name matches a temporary CSE name is renamed back to
its intended final name. -/
def cseMarker : String := "__POLARS_CSER_"

/-- Modelled from the spec (§4.4): rename a column carrying a temporary
CSE name back to its final name; other columns are untouched. -/
def renameCseTmp (s : Series) : Series :=
  if s.name.take cseMarker.length == cseMarker then
    ⟨s.name.drop cseMarker.length, s.values⟩
  else s

/-- The runner selected by `evaluate_physical_expressions`: the
window-aware evaluator when `has_windows`, otherwise the data-parallel
evaluator (which never panics, hence always `some`). -/
def runnerOf (has_windows : Bool) :
    DataFrame → List PhysicalExpr → ExecutionState →
    Option (Except PError (List Series)) :=
  if has_windows then execute_projection_cached_window_fns
  else fun df exprs st => some (run_exprs_par df exprs st)

/-- The main entry `evaluate_physical_expressions`.  The returned triple
is the function's result together with the final contents of the
caller-visible mutable table `df` and of the execution state (which the
source mutates through interior mutability); `none` models a panic.  On
the CSE path the table is widened in place with the temporary columns,
the main expressions are evaluated against the widened table, and the
column vector is truncated back — but an error from that second
evaluation propagates before the truncation runs. -/
def evaluate_physical_expressions (df : DataFrame)
    (cse_exprs exprs : List PhysicalExpr) (state : ExecutionState)
    (has_windows : Bool) :
    Option (Except PError (List Series) × DataFrame × ExecutionState) :=
  let runner := runnerOf has_windows
  if cse_exprs.isEmpty then
    match runner df exprs state with
    | none => none
    | some (.error e) => some (.error e, df, state)
    | some (.ok cols) =>
      let state := if has_windows then state.clearWindowExprCache else state
      some (.ok cols, df, state)
  else
    match runner df cse_exprs state with
    | none => none
    | some (.error e) => some (.error e, df, state)
    | some (.ok tmp_cols) =>
      let state := if has_windows then state.clearWindowExprCache else state
      let width := df.width
      let df := df.hstack_mut_unchecked tmp_cols
      match runner df exprs state with
      | none => none
      | some (.error e) => some (.error e, df, state)
      | some (.ok result) =>
        let df := df.truncate_columns width
        let result := result.map renameCseTmp
        let state := if has_windows then state.clearWindowExprCache else state
        some (.ok result, df, state)

mutual

/-- Modelled from the spec: the `mutate().apply` tree-rewriting helper
used by `undo_aliases` is outside the sources under review; per the spec
(§4.2), `undo_aliases` rewrites every alias / keep-name / rename-alias
node to its wrapped child, recursively, since aliasing wrappers may
nest, and returns the fully unwrapped tree. -/
def undo_aliases : Expr → Expr
  | .column s => .column s
  | .lit n => .lit n
  | .alias e _ => undo_aliases e
  | .keepName e => undo_aliases e
  | .renameAlias e => undo_aliases e
  | .binaryExpr a b => .binaryExpr (undo_aliases a) (undo_aliases b)
  | .window pby inner => .window (undoAliasesMany pby) (undo_aliases inner)

/-- Pointwise `undo_aliases` over a list of subtrees. -/
def undoAliasesMany : List Expr → List Expr
  | [] => []
  | e :: es => undo_aliases e :: undoAliasesMany es

end

mutual

/-- Does the tree contain an alias, keep-name or rename-alias node
anywhere. -/
def hasAliasWrapper : Expr → Bool
  | .column _ => false
  | .lit _ => false
  | .alias _ _ => true
  | .keepName _ => true
  | .renameAlias _ => true
  | .binaryExpr a b => hasAliasWrapper a || hasAliasWrapper b
  | .window pby inner => hasAliasWrapperMany pby || hasAliasWrapper inner

/-- Does any tree in the list contain an aliasing wrapper. -/
def hasAliasWrapperMany : List Expr → Bool
  | [] => false
  | e :: es => hasAliasWrapper e || hasAliasWrapperMany es

end

/-- Concrete one-column table used by the closed theorems below. -/
def dfA : DataFrame := ⟨[⟨"a", [1, 2, 3]⟩]⟩

/-- Concrete execution state with an empty window cache. -/
def stA : ExecutionState := ⟨[], false, false⟩

/-- Concrete execution state whose window cache is non-empty. -/
def stCached : ExecutionState := ⟨[("sig", ⟨"c", [7]⟩)], false, false⟩

/-- A physical expression whose evaluation always succeeds with a
one-row column named `t`; its source tree is a plain literal. -/
def litPhys : PhysicalExpr := ⟨some (.lit 1), fun _ _ => .ok ⟨"t", [1]⟩⟩

/-- A physical expression whose evaluation always fails. -/
def failPhys : PhysicalExpr := ⟨some (.lit 2), fun _ _ => .error (.computeError "boom")⟩

/-- A window expression partitioned by column `k`. -/
def winE : Expr := .window [.column "k"] (.lit 1)

/-- A physical expression whose source tree is `winE` and whose
evaluation always succeeds. -/
def winPhys : PhysicalExpr := ⟨some winE, fun _ _ => .ok ⟨"w", [1]⟩⟩

/-- The widened table left behind by the failing CSE scenario of C1. -/
def dfWideA : DataFrame := ⟨[⟨"a", [1, 2, 3]⟩, ⟨"t", [1]⟩]⟩

/-- A physical expression exposing no source tree
(`as_expression()` returns `None`). -/
def noSrcPhys : PhysicalExpr := ⟨none, fun _ _ => .ok ⟨"x", [1]⟩⟩

/-- A second window physical expression whose source tree wraps `winE`
in an alias, so its first window node has the same partition-by list. -/
def winPhys2 : PhysicalExpr := ⟨some (.alias winE "z"), fun _ _ => .ok ⟨"w2", [2]⟩⟩

/-- The bucket list produced by partitioning `[winPhys, winPhys2]`. -/
def ws0 : List (List Expr × List (Nat × PhysicalExpr)) :=
  [([.column "k"], [(1, winPhys), (2, winPhys2)])]

/-- Fully sequential in-order reference evaluator, from the spec's words
(§8): each expression evaluated one after the other against the same
table and state, results in declared order, first failure aborts. -/
def run_exprs_seq (df : DataFrame) :
    List PhysicalExpr → ExecutionState → Except PError (List Series)
  | [], _ => .ok []
  | e :: rest, state =>
    match e.eval df state with
    | .error err => .error err
    | .ok s =>
      match run_exprs_seq df rest state with
      | .error err => .error err
      | .ok ss => .ok (s :: ss)

/-- Tag each expression with its 1-based position counted from `n`
(the position tags assigned by the partitioning loop). -/
def tagFrom (n : Nat) : List PhysicalExpr → List (Nat × PhysicalExpr)
  | [] => []
  | p :: ps => (n + 1, p) :: tagFrom (n + 1) ps

/-- Tag each series with its 1-based position counted from `n`. -/
def tagSeries (n : Nat) : List Series → List (Nat × Series)
  | [] => []
  | s :: ss => (n + 1, s) :: tagSeries (n + 1) ss

/-- Running maximum of the column lengths, exactly the `df_height`
accumulation of the first scan loop. -/
def maxLen (cs : List Series) : Nat :=
  cs.foldl (fun a c => max a c.len) 0

/-- The admissible lengths of C6's claim relative to `df_height`:
broadcastable (length 1 with `df_height > 1`), already matching, or
empty. -/
def broadcastOk (dfHeight : Nat) (s : Series) : Prop :=
  (s.len = 1 ∧ 1 < dfHeight) ∨ s.len = dfHeight ∨ s.len = 0

instance (dfHeight : Nat) (s : Series) : Decidable (broadcastOk dfHeight s) := by
  unfold broadcastOk; infer_instance

/-- The per-column broadcast outcome as C6's claim states it: a length-1
column is expanded to `df_height` by repeating its single value whenever
`df_height > 1`; every other admissible column passes through
unchanged. -/
def broadcastSpec (dfHeight : Nat) (s : Series) : Series :=
  if s.len = 1 ∧ 1 < dfHeight then ⟨s.name, List.replicate dfHeight s.values.headI⟩
  else s

/-- Membership of a tagged expression in the bucket keyed `k`. -/
def entryIn (ws : List (List Expr × List (Nat × PhysicalExpr)))
    (k : List Expr) (q : Nat × PhysicalExpr) : Prop :=
  ∃ b ∈ ws, b.1 = k ∧ q ∈ b.2

/-- The keys of the bucket list, in bucket order. -/
def bucketKeys (ws : List (List Expr × List (Nat × PhysicalExpr))) : List (List Expr) :=
  ws.map Prod.fst

/-- Every entry of every bucket carries a source tree whose first window
node's partition-by list is the bucket's key. -/
def bucketInv (ws : List (List Expr × List (Nat × PhysicalExpr))) : Prop :=
  ∀ b ∈ ws, ∀ q ∈ b.2, ∃ e, q.2.sourceExpr = some e ∧ windowKey e = some b.1

mutual

theorem hasAliasWrapper_undo : ∀ e : Expr, hasAliasWrapper (undo_aliases e) = false
  | .column _ => rfl
  | .lit _ => rfl
  | .alias e _ => hasAliasWrapper_undo e
  | .keepName e => hasAliasWrapper_undo e
  | .renameAlias e => hasAliasWrapper_undo e
  | .binaryExpr a b => by
      simp [undo_aliases, hasAliasWrapper, hasAliasWrapper_undo a, hasAliasWrapper_undo b]
  | .window pby inner => by
      simp [undo_aliases, hasAliasWrapper, hasAliasWrapper_undo inner,
        hasAliasWrapperMany_undo pby]

theorem hasAliasWrapperMany_undo :
    ∀ es : List Expr, hasAliasWrapperMany (undoAliasesMany es) = false
  | [] => rfl
  | e :: es => by
      simp [undoAliasesMany, hasAliasWrapperMany, hasAliasWrapper_undo e,
        hasAliasWrapperMany_undo es]

end

mutual

theorem undo_aliases_of_clean :
    ∀ e : Expr, hasAliasWrapper e = false → undo_aliases e = e
  | .column _, _ => rfl
  | .lit _, _ => rfl
  | .alias _ _, h => by simp [hasAliasWrapper] at h
  | .keepName _, h => by simp [hasAliasWrapper] at h
  | .renameAlias _, h => by simp [hasAliasWrapper] at h
  | .binaryExpr a b, h => by
      simp only [hasAliasWrapper, Bool.or_eq_false_iff] at h
      simp [undo_aliases, undo_aliases_of_clean a h.1, undo_aliases_of_clean b h.2]
  | .window pby inner, h => by
      simp only [hasAliasWrapper, Bool.or_eq_false_iff] at h
      simp [undo_aliases, undoAliasesMany_of_clean pby h.1, undo_aliases_of_clean inner h.2]

theorem undoAliasesMany_of_clean :
    ∀ es : List Expr, hasAliasWrapperMany es = false → undoAliasesMany es = es
  | [], _ => rfl
  | e :: es, h => by
      simp only [hasAliasWrapperMany, Bool.or_eq_false_iff] at h
      simp [undoAliasesMany, undo_aliases_of_clean e h.1, undoAliasesMany_of_clean es h.2]

end

/-- C8: `undo_aliases` returns a tree in which no alias, keep-name or
rename-alias node remains; every such wrapper, including nested ones, is
rewritten to its wrapped child, and wrapper-free trees are returned
unchanged. -/
theorem c8_undo_aliases_unwraps (e : Expr) (s : String) :
    hasAliasWrapper (undo_aliases e) = false ∧
    undo_aliases (.alias e s) = undo_aliases e ∧
    undo_aliases (.keepName e) = undo_aliases e ∧
    undo_aliases (.renameAlias e) = undo_aliases e ∧
    (hasAliasWrapper e = false → undo_aliases e = e) :=
  ⟨hasAliasWrapper_undo e, rfl, rfl, rfl, undo_aliases_of_clean e⟩

/-- Witness for C8 at a concrete wrapper-free tree. -/
theorem c8_witness :
    hasAliasWrapper (.binaryExpr (.column "a") (.lit 0)) = false ∧
    undo_aliases (.binaryExpr (.column "a") (.lit 0)) = .binaryExpr (.column "a") (.lit 0) :=
  ⟨by decide, (c8_undo_aliases_unwraps (.binaryExpr (.column "a") (.lit 0)) "x").2.2.2.2
    (by decide)⟩

/-- C9: `check_expand_literals` panics (out-of-bounds index on the first
column) on the empty column list, and returns a non-panicking result on
every non-empty column list. -/
theorem c9_empty_input_panics (zl : Bool) (cs : List Series) (h : cs ≠ []) :
    check_expand_literals [] zl = none ∧
    ∃ r, check_expand_literals cs zl = some r := by
  refine ⟨rfl, ?_⟩
  match cs, h with
  | s0 :: rest, _ => exact ⟨_, rfl⟩

/-- Witness for C9 at a concrete one-column input. -/
theorem c9_witness :
    ([(⟨"a", [1]⟩ : Series)] : List Series) ≠ [] ∧
    (check_expand_literals [] true = none ∧
      ∃ r, check_expand_literals [⟨"a", [1]⟩] true = some r) :=
  ⟨by decide, c9_empty_input_panics true [⟨"a", [1]⟩] (by decide)⟩

/-- C1: the claim says the table's column count is restored on every
failure path of `evaluate_physical_expressions` with non-empty
`cse_exprs`; the code instead propagates a failure of the second
evaluation before the truncation runs, leaving the table widened.  At
this concrete input the call enters with width 1 and returns an error
with the table at width 2. -/
theorem c1_cse_failure_leaves_table_widened :
    evaluate_physical_expressions dfA [litPhys] [failPhys] stA false =
      some (.error (.computeError "boom"), dfWideA, stA) ∧
    dfA.width = 1 ∧ dfWideA.width = 2 := by
  refine ⟨?_, rfl, rfl⟩
  rfl

/-- C2 counterexample: with `has_windows` unset, a successful call
returns with the execution state's window cache untouched — here the
cache is non-empty on entry and still non-empty on return, refuting the
claim that the cache is cleared on every return path. -/
theorem c2_counterexample_cache_not_cleared :
    evaluate_physical_expressions dfA [] [litPhys] stCached false =
      some (.ok [⟨"t", [1]⟩], dfA, stCached) ∧
    stCached.windowCache ≠ [] := by
  exact ⟨rfl, by decide⟩

/-- C2 amended: whenever `has_windows` is set and
`evaluate_physical_expressions` returns successfully, the window cache
is cleared by the time the call returns. -/
theorem c2_amended_cache_cleared_on_windowed_success (df df' : DataFrame)
    (cse_exprs exprs : List PhysicalExpr) (state state' : ExecutionState)
    (cols : List Series)
    (h : evaluate_physical_expressions df cse_exprs exprs state true =
      some (.ok cols, df', state')) :
    state'.windowCache = [] := by
  unfold evaluate_physical_expressions at h
  by_cases hc : cse_exprs.isEmpty <;>
    simp only [hc, if_true, if_false, runnerOf] at h
  · cases hrun : execute_projection_cached_window_fns df exprs state with
    | none => rw [hrun] at h; cases h
    | some r =>
      rw [hrun] at h
      cases r with
      | error e => simp at h
      | ok c =>
        simp only [Option.some.injEq, Prod.mk.injEq] at h
        rw [← h.2.2]
        rfl
  · cases hrun : execute_projection_cached_window_fns df cse_exprs state with
    | none => rw [hrun] at h; cases h
    | some r =>
      rw [hrun] at h
      cases r with
      | error e => simp at h
      | ok tmp =>
        simp only at h
        cases hrun2 : execute_projection_cached_window_fns
            (df.hstack_mut_unchecked tmp) exprs (state.clearWindowExprCache) with
        | none => rw [hrun2] at h; cases h
        | some r2 =>
          rw [hrun2] at h
          cases r2 with
          | error e => simp at h
          | ok res =>
            simp only [Bool.false_eq_true, if_false, Option.some.injEq,
              Prod.mk.injEq] at h
            rw [← h.2.2]
            rfl

/-- Witness for C2 amended: a concrete windowed successful call whose
returned state has an empty cache. -/
theorem c2_witness :
    evaluate_physical_expressions dfA [] [litPhys] stCached true =
      some (.ok [⟨"t", [1]⟩], dfA, (⟨[], false, false⟩ : ExecutionState)) ∧
    (⟨[], false, false⟩ : ExecutionState).windowCache = [] :=
  ⟨rfl,
    c2_amended_cache_cleared_on_windowed_success dfA dfA [] [litPhys] stCached
      ⟨[], false, false⟩ [⟨"t", [1]⟩] rfl⟩

/-- C3 counterexample: a windowed group containing exactly one
expression, whose expression contains exactly one window node; during
that group's evaluation the shared cache flag is enabled (the trace of
flag values is `[false, true]`), refuting the claim that the flag is
never enabled for a singleton group. -/
theorem c3_counterexample_singleton_group_enables_flag :
    ([(1, winPhys)] : List (Nat × PhysicalExpr)).length = 1 ∧
    evalWindowGroup dfA stA [(1, winPhys)] =
      some (.ok [(1, ⟨"w", [1]⟩)], [false, true]) ∧
    true ∈ ([false, true] : List Bool) := by
  refine ⟨rfl, ?_, by decide⟩
  rfl

/-- When every expression of a group carries a source tree and every
evaluation succeeds, the group loop completes, and the cache-window flag
in force at each expression's evaluation is enabled exactly when that
expression's source tree contains exactly one window node — whatever
state the loop starts from. -/
theorem evalGroupLoop_trace (df : DataFrame) :
    ∀ group : List (Nat × PhysicalExpr),
      (∀ p ∈ group, p.2.sourceExpr.isSome = true) →
      (∀ p ∈ group, ∀ s : ExecutionState, ∃ out, p.2.eval df s = .ok out) →
      ∀ st : ExecutionState, ∃ rs,
        evalGroupLoop df st group =
          some (.ok rs,
            group.map fun p => windowCount (p.2.sourceExpr.getD (.lit 0)) == 1)
  | [], _, _, _ => ⟨[], rfl⟩
  | (i, e) :: rest, hsrc, hok, st => by
    obtain ⟨src, hsome⟩ :=
      Option.isSome_iff_exists.mp (hsrc (i, e) (List.mem_cons_self _ _))
    have hsrc' := fun q hq => hsrc q (List.mem_cons_of_mem _ hq)
    have hok' := fun q hq => hok q (List.mem_cons_of_mem _ hq)
    have hsome' : e.sourceExpr = some src := hsome
    cases hcnt : (windowCount src == 1) with
    | true =>
      obtain ⟨out, hout⟩ :=
        hok (i, e) (List.mem_cons_self _ _) st.insertCacheWindowFlag
      have hout' : e.eval df st.insertCacheWindowFlag = Except.ok out := hout
      obtain ⟨rs, hrs⟩ := evalGroupLoop_trace df rest hsrc' hok' st.insertCacheWindowFlag
      refine ⟨(i, out) :: rs, ?_⟩
      unfold evalGroupLoop
      rw [hsome']
      simp only [if_pos hcnt, hout', hrs]
      simp [ExecutionState.insertCacheWindowFlag, hsome', hcnt]
    | false =>
      obtain ⟨out, hout⟩ :=
        hok (i, e) (List.mem_cons_self _ _) st.removeCacheWindowFlag
      have hout' : e.eval df st.removeCacheWindowFlag = Except.ok out := hout
      obtain ⟨rs, hrs⟩ := evalGroupLoop_trace df rest hsrc' hok' st.removeCacheWindowFlag
      refine ⟨(i, out) :: rs, ?_⟩
      have hne : ¬ ((windowCount src == 1) = true) := by simp [hcnt]
      unfold evalGroupLoop
      rw [hsome']
      simp only [if_neg hne, hout', hrs]
      simp [ExecutionState.removeCacheWindowFlag, hsome', hcnt]

/-- C3 amended: within a windowed group the per-expression re-derivation
overrides the group-size default — during each expression's evaluation
the cache flag is enabled exactly when that expression contains one
window node, for singleton groups too; the defaulted flag (head of the
trace) is enabled exactly when the group has two or more expressions. -/
theorem c3_amended_flag_rederived_per_expression (df : DataFrame)
    (parent : ExecutionState) (group : List (Nat × PhysicalExpr))
    (hsrc : ∀ p ∈ group, p.2.sourceExpr.isSome = true)
    (hok : ∀ p ∈ group, ∀ s : ExecutionState, ∃ out, p.2.eval df s = .ok out) :
    ∃ rs, evalWindowGroup df parent group =
      some (.ok rs, (!(group.length == 1)) ::
        group.map fun p => windowCount (p.2.sourceExpr.getD (.lit 0)) == 1) := by
  obtain ⟨rs, hrs⟩ := evalGroupLoop_trace df group hsrc hok
    (if group.length == 1
      then (parent.split.insertHasWindowFunctionFlag).removeCacheWindowFlag
      else (parent.split.insertHasWindowFunctionFlag).insertCacheWindowFlag)
  refine ⟨rs, ?_⟩
  cases hlen : (group.length == 1) with
  | true =>
    simp only [hlen, if_true] at hrs
    simp only [evalWindowGroup, hlen, if_true, hrs, Bool.not_true]
    rfl
  | false =>
    simp only [hlen, Bool.false_eq_true, if_false] at hrs
    simp only [evalWindowGroup, hlen, Bool.false_eq_true, if_false, hrs, Bool.not_false]
    rfl

/-- Witness for C3 amended at a concrete singleton group: the flag trace
is `[false, true]` — disabled by the group default, enabled during the
evaluation of the single one-window expression. -/
theorem c3_witness :
    (∀ p ∈ ([(1, winPhys)] : List (Nat × PhysicalExpr)), p.2.sourceExpr.isSome = true) ∧
    ∃ rs, evalWindowGroup dfA stA [(1, winPhys)] = some (.ok rs, [false, true]) :=
  ⟨fun p hp => by rcases List.mem_singleton.mp hp with rfl; rfl,
    c3_amended_flag_rederived_per_expression dfA stA [(1, winPhys)]
      (fun p hp => by rcases List.mem_singleton.mp hp with rfl; rfl)
      (fun p hp s => by
        rcases List.mem_singleton.mp hp with rfl
        exact ⟨⟨"w", [1]⟩, rfl⟩)⟩

theorem addToWindows_entry_mem (ws : List (List Expr × List (Nat × PhysicalExpr)))
    (k : List Expr) (q : Nat × PhysicalExpr) :
    entryIn (addToWindows ws k q) k q := by
  induction ws with
  | nil =>
    exact ⟨(k, [q]), List.mem_singleton_self _, rfl, List.mem_singleton_self _⟩
  | cons b rest ih =>
    obtain ⟨k0, es⟩ := b
    by_cases hk : k0 = k
    · simp only [addToWindows, if_pos hk]
      exact ⟨(k0, es ++ [q]), List.mem_cons_self _ _, hk,
        List.mem_append_right _ (List.mem_singleton_self _)⟩
    · simp only [addToWindows, if_neg hk]
      obtain ⟨b', hb', hk', hq'⟩ := ih
      exact ⟨b', List.mem_cons_of_mem _ hb', hk', hq'⟩

theorem addToWindows_entry_preserved (ws : List (List Expr × List (Nat × PhysicalExpr)))
    (k k' : List Expr) (q q' : Nat × PhysicalExpr)
    (h : entryIn ws k' q') : entryIn (addToWindows ws k q) k' q' := by
  induction ws with
  | nil => obtain ⟨b, hb, _⟩ := h; cases hb
  | cons b rest ih =>
    obtain ⟨k0, es⟩ := b
    obtain ⟨b', hb', hbk, hbq⟩ := h
    by_cases hk : k0 = k
    · simp only [addToWindows, if_pos hk]
      rcases List.mem_cons.mp hb' with hb1 | hb2
      · subst hb1
        exact ⟨(k0, es ++ [q]), List.mem_cons_self _ _, hbk, List.mem_append_left _ hbq⟩
      · exact ⟨b', List.mem_cons_of_mem _ hb2, hbk, hbq⟩
    · simp only [addToWindows, if_neg hk]
      rcases List.mem_cons.mp hb' with hb1 | hb2
      · subst hb1
        exact ⟨(k0, es), List.mem_cons_self _ _, hbk, hbq⟩
      · obtain ⟨b2, h2, h3, h4⟩ := ih ⟨b', hb2, hbk, hbq⟩
        exact ⟨b2, List.mem_cons_of_mem _ h2, h3, h4⟩

theorem addToWindows_keys (ws : List (List Expr × List (Nat × PhysicalExpr)))
    (k : List Expr) (q : Nat × PhysicalExpr) :
    bucketKeys (addToWindows ws k q) =
      if k ∈ bucketKeys ws then bucketKeys ws else bucketKeys ws ++ [k] := by
  induction ws with
  | nil => simp [addToWindows, bucketKeys]
  | cons b rest ih =>
    obtain ⟨k0, es⟩ := b
    by_cases hk : k0 = k
    · subst hk
      simp [addToWindows, bucketKeys, List.mem_cons]
    · simp only [addToWindows, if_neg hk, bucketKeys, List.map_cons, List.mem_cons]
      simp only [bucketKeys] at ih
      rw [ih]
      by_cases hmem : k ∈ List.map Prod.fst rest
      · simp [hmem, Ne.symm hk]
      · simp [hmem, Ne.symm hk, List.cons_append]

theorem addToWindows_keys_nodup (ws : List (List Expr × List (Nat × PhysicalExpr)))
    (k : List Expr) (q : Nat × PhysicalExpr) (h : (bucketKeys ws).Nodup) :
    (bucketKeys (addToWindows ws k q)).Nodup := by
  rw [addToWindows_keys]
  by_cases hk : k ∈ bucketKeys ws
  · simpa [hk] using h
  · simp only [hk, if_neg, ite_false]
    rw [List.nodup_append]
    refine ⟨h, List.nodup_singleton _, ?_⟩
    intro a ha hak
    rw [List.mem_singleton.mp hak] at ha
    exact hk ha

theorem bucket_eq_of_key_eq :
    ∀ ws : List (List Expr × List (Nat × PhysicalExpr)),
      (bucketKeys ws).Nodup →
      ∀ b b', b ∈ ws → b' ∈ ws → b.1 = b'.1 → b = b'
  | [], _, b, b', hb, _, _ => by cases hb
  | w :: rest, h, b, b', hb, hb', hkey => by
    have hnd : (bucketKeys rest).Nodup := by
      have := h
      rw [bucketKeys, List.map_cons, List.nodup_cons] at this
      exact this.2
    have hni : w.1 ∉ bucketKeys rest := by
      have := h
      rw [bucketKeys, List.map_cons, List.nodup_cons] at this
      exact this.1
    rcases List.mem_cons.mp hb with rfl | hb2
    · rcases List.mem_cons.mp hb' with rfl | hb2'
      · rfl
      · exact absurd (hkey ▸ List.mem_map_of_mem Prod.fst hb2') hni
    · rcases List.mem_cons.mp hb' with rfl | hb2'
      · exact absurd (hkey ▸ List.mem_map_of_mem Prod.fst hb2) hni
      · exact bucket_eq_of_key_eq rest hnd b b' hb2 hb2' hkey

theorem bucketInv_of_cons {w : List Expr × List (Nat × PhysicalExpr)}
    {rest : List (List Expr × List (Nat × PhysicalExpr))}
    (h : bucketInv (w :: rest)) : bucketInv rest :=
  fun b hb => h b (List.mem_cons_of_mem _ hb)

theorem addToWindows_inv (ws : List (List Expr × List (Nat × PhysicalExpr)))
    (k : List Expr) (q : Nat × PhysicalExpr) (hinv : bucketInv ws)
    (hq : ∃ e, q.2.sourceExpr = some e ∧ windowKey e = some k) :
    bucketInv (addToWindows ws k q) := by
  induction ws with
  | nil =>
    intro b hb q' hq'
    rw [addToWindows] at hb
    rcases List.mem_singleton.mp hb with rfl
    rcases List.mem_singleton.mp hq' with rfl
    exact hq
  | cons b0 rest ih =>
    obtain ⟨k0, es⟩ := b0
    by_cases hk : k0 = k
    · simp only [addToWindows, if_pos hk]
      intro b hb q' hq'
      rcases List.mem_cons.mp hb with rfl | hb2
      · rcases List.mem_append.mp hq' with hq1 | hq2
        · exact hinv (k0, es) (List.mem_cons_self _ _) q' hq1
        · rcases List.mem_singleton.mp hq2 with rfl
          exact hk ▸ hq
      · exact hinv b (List.mem_cons_of_mem _ hb2) q' hq'
    · simp only [addToWindows, if_neg hk]
      intro b hb q' hq'
      rcases List.mem_cons.mp hb with rfl | hb2
      · exact hinv (k0, es) (List.mem_cons_self _ _) q' hq'
      · exact ih (bucketInv_of_cons hinv) b hb2 q' hq'

theorem partitionGo_entry_preserved :
    ∀ (l : List PhysicalExpr) (idx : Nat)
      (ws ws' : List (List Expr × List (Nat × PhysicalExpr)))
      (os os' : List (Nat × PhysicalExpr)),
      partitionGo l idx ws os = some (ws', os') →
      ∀ (k : List Expr) (q : Nat × PhysicalExpr), entryIn ws k q → entryIn ws' k q
  | [], _, ws, ws', os, os', h, k, q, hin => by
    simp only [partitionGo, Option.some.injEq, Prod.mk.injEq] at h
    rw [← h.1]
    exact hin
  | p :: rest, idx, ws, ws', os, os', h, k, q, hin => by
    cases hs : p.sourceExpr with
    | none => simp [partitionGo, hs] at h
    | some e =>
      cases hk : windowKey e with
      | some k2 =>
        simp only [partitionGo, hs, hk] at h
        exact partitionGo_entry_preserved rest (idx + 1) _ ws' _ os' h k q
          (addToWindows_entry_preserved ws k2 k (idx + 1, p) q hin)
      | none =>
        simp only [partitionGo, hs, hk] at h
        exact partitionGo_entry_preserved rest (idx + 1) _ ws' _ os' h k q hin

theorem partitionGo_entry_inserted :
    ∀ (l : List PhysicalExpr) (i idx : Nat)
      (ws ws' : List (List Expr × List (Nat × PhysicalExpr)))
      (os os' : List (Nat × PhysicalExpr)) (p : PhysicalExpr) (e : Expr)
      (k : List Expr),
      partitionGo l idx ws os = some (ws', os') →
      l[i]? = some p → p.sourceExpr = some e → windowKey e = some k →
      entryIn ws' k (idx + i + 1, p)
  | [], i, _, _, _, _, _, _, _, _, _, hget, _, _ => by simp at hget
  | q :: rest, 0, idx, ws, ws', os, os', p, e, k, h, hget, hsrc, hkey => by
    rw [List.getElem?_cons_zero, Option.some.injEq] at hget
    subst hget
    simp only [partitionGo, hsrc, hkey] at h
    have hmem := addToWindows_entry_mem ws k (idx + 1, q)
    have hres := partitionGo_entry_preserved rest (idx + 1) _ ws' _ os' h k
      (idx + 1, q) hmem
    simpa using hres
  | q :: rest, i + 1, idx, ws, ws', os, os', p, e, k, h, hget, hsrc, hkey => by
    rw [List.getElem?_cons_succ] at hget
    cases hs : q.sourceExpr with
    | none => simp [partitionGo, hs] at h
    | some e2 =>
      cases hk2 : windowKey e2 with
      | some k2 =>
        simp only [partitionGo, hs, hk2] at h
        have hres := partitionGo_entry_inserted rest i (idx + 1) _ ws' _ os' p e k
          h hget hsrc hkey
        have harith : idx + 1 + i + 1 = idx + (i + 1) + 1 := by omega
        rwa [harith] at hres
      | none =>
        simp only [partitionGo, hs, hk2] at h
        have hres := partitionGo_entry_inserted rest i (idx + 1) _ ws' _ os' p e k
          h hget hsrc hkey
        have harith : idx + 1 + i + 1 = idx + (i + 1) + 1 := by omega
        rwa [harith] at hres

theorem partitionGo_inv :
    ∀ (l : List PhysicalExpr) (idx : Nat)
      (ws ws' : List (List Expr × List (Nat × PhysicalExpr)))
      (os os' : List (Nat × PhysicalExpr)),
      partitionGo l idx ws os = some (ws', os') → bucketInv ws → bucketInv ws'
  | [], _, ws, ws', os, os', h, hinv => by
    simp only [partitionGo, Option.some.injEq, Prod.mk.injEq] at h
    rw [← h.1]
    exact hinv
  | p :: rest, idx, ws, ws', os, os', h, hinv => by
    cases hs : p.sourceExpr with
    | none => simp [partitionGo, hs] at h
    | some e =>
      cases hk : windowKey e with
      | some k2 =>
        simp only [partitionGo, hs, hk] at h
        exact partitionGo_inv rest (idx + 1) _ ws' _ os' h
          (addToWindows_inv ws k2 (idx + 1, p) hinv ⟨e, hs, hk⟩)
      | none =>
        simp only [partitionGo, hs, hk] at h
        exact partitionGo_inv rest (idx + 1) _ ws' _ os' h hinv

theorem partitionGo_keys_nodup :
    ∀ (l : List PhysicalExpr) (idx : Nat)
      (ws ws' : List (List Expr × List (Nat × PhysicalExpr)))
      (os os' : List (Nat × PhysicalExpr)),
      partitionGo l idx ws os = some (ws', os') →
      (bucketKeys ws).Nodup → (bucketKeys ws').Nodup
  | [], _, ws, ws', os, os', h, hnd => by
    simp only [partitionGo, Option.some.injEq, Prod.mk.injEq] at h
    rw [← h.1]
    exact hnd
  | p :: rest, idx, ws, ws', os, os', h, hnd => by
    cases hs : p.sourceExpr with
    | none => simp [partitionGo, hs] at h
    | some e =>
      cases hk : windowKey e with
      | some k2 =>
        simp only [partitionGo, hs, hk] at h
        exact partitionGo_keys_nodup rest (idx + 1) _ ws' _ os' h
          (addToWindows_keys_nodup ws k2 (idx + 1, p) hnd)
      | none =>
        simp only [partitionGo, hs, hk] at h
        exact partitionGo_keys_nodup rest (idx + 1) _ ws' _ os' h hnd

/-- C5: under the window-aware evaluator's partitioning, two window
expressions (at positions `i` and `j`, with first-window partition-by
lists `ki` and `kj`) land in the same bucket exactly when `ki = kj` —
structural identity of the partition-by key lists. -/
theorem c5_same_group_iff_same_key (exprs : List PhysicalExpr)
    (ws : List (List Expr × List (Nat × PhysicalExpr)))
    (os : List (Nat × PhysicalExpr))
    (hpart : partitionWindows exprs = some (ws, os))
    (i j : Nat) (p q : PhysicalExpr) (ep eqx : Expr) (ki kj : List Expr)
    (hi : exprs[i]? = some p) (hpe : p.sourceExpr = some ep)
    (hki : windowKey ep = some ki)
    (hj : exprs[j]? = some q) (hqe : q.sourceExpr = some eqx)
    (hkj : windowKey eqx = some kj) :
    (∃ b ∈ ws, (i + 1, p) ∈ b.2 ∧ (j + 1, q) ∈ b.2) ↔ ki = kj := by
  have hinv : bucketInv ws :=
    partitionGo_inv exprs 0 [] ws [] os hpart (fun b hb => by cases hb)
  have hnd : (bucketKeys ws).Nodup :=
    partitionGo_keys_nodup exprs 0 [] ws [] os hpart List.nodup_nil
  constructor
  · rintro ⟨b, hb, hip, hjq⟩
    obtain ⟨e1, he1, hk1⟩ := hinv b hb (i + 1, p) hip
    obtain ⟨e2, he2, hk2⟩ := hinv b hb (j + 1, q) hjq
    rw [hpe, Option.some.injEq] at he1
    rw [hqe, Option.some.injEq] at he2
    subst he1
    subst he2
    rw [hki, Option.some.injEq] at hk1
    rw [hkj, Option.some.injEq] at hk2
    exact hk1.trans hk2.symm
  · rintro rfl
    have hin1 : entryIn ws ki (0 + i + 1, p) :=
      partitionGo_entry_inserted exprs i 0 [] ws [] os p ep ki hpart hi hpe hki
    have hin2 : entryIn ws ki (0 + j + 1, q) :=
      partitionGo_entry_inserted exprs j 0 [] ws [] os q eqx ki hpart hj hqe hkj
    rw [Nat.zero_add] at hin1 hin2
    obtain ⟨b1, hb1, hbk1, hq1⟩ := hin1
    obtain ⟨b2, hb2, hbk2, hq2⟩ := hin2
    have hbb : b1 = b2 :=
      bucket_eq_of_key_eq ws hnd b1 b2 hb1 hb2 (hbk1.trans hbk2.symm)
    exact ⟨b1, hb1, hq1, hbb ▸ hq2⟩

/-- Witness for C5: two concrete window expressions with identical
partition-by lists land in one bucket. -/
theorem c5_witness :
    partitionWindows [winPhys, winPhys2] = some (ws0, []) ∧
    ∃ b ∈ ws0, (0 + 1, winPhys) ∈ b.2 ∧ (1 + 1, winPhys2) ∈ b.2 :=
  ⟨rfl,
    (c5_same_group_iff_same_key [winPhys, winPhys2] ws0 [] rfl 0 1 winPhys winPhys2
      winE (.alias winE "z") [.column "k"] [.column "k"] rfl rfl rfl rfl rfl rfl).mpr rfl⟩

theorem partitionGo_none :
    ∀ (l : List PhysicalExpr) (idx : Nat)
      (ws : List (List Expr × List (Nat × PhysicalExpr)))
      (os : List (Nat × PhysicalExpr)),
      (∃ p ∈ l, p.sourceExpr = none) → partitionGo l idx ws os = none
  | [], _, _, _, h => by simp at h
  | p :: rest, idx, ws, os, h => by
    cases hs : p.sourceExpr with
    | none => simp [partitionGo, hs]
    | some e =>
      have hrest : ∃ q ∈ rest, q.sourceExpr = none := by
        obtain ⟨q, hq, hqn⟩ := h
        rcases List.mem_cons.mp hq with rfl | hq2
        · rw [hs] at hqn; cases hqn
        · exact ⟨q, hq2, hqn⟩
      cases hk : windowKey e with
      | some k =>
        simp only [partitionGo, hs, hk]
        exact partitionGo_none rest _ _ _ hrest
      | none =>
        simp only [partitionGo, hs, hk]
        exact partitionGo_none rest _ _ _ hrest

theorem partitionGo_total :
    ∀ (l : List PhysicalExpr) (idx : Nat)
      (ws : List (List Expr × List (Nat × PhysicalExpr)))
      (os : List (Nat × PhysicalExpr)),
      (∀ p ∈ l, p.sourceExpr.isSome = true) → ∃ r, partitionGo l idx ws os = some r
  | [], _, ws, os, _ => ⟨(ws, os), rfl⟩
  | p :: rest, idx, ws, os, h => by
    obtain ⟨e, hs⟩ := Option.isSome_iff_exists.mp (h p (List.mem_cons_self _ _))
    have h' := fun q hq => h q (List.mem_cons_of_mem _ hq)
    cases hk : windowKey e with
    | some k =>
      obtain ⟨r, hr⟩ :=
        partitionGo_total rest (idx + 1) (addToWindows ws k (idx + 1, p)) os h'
      exact ⟨r, by simp only [partitionGo, hs, hk]; exact hr⟩
    | none =>
      obtain ⟨r, hr⟩ := partitionGo_total rest (idx + 1) ws (os ++ [(idx + 1, p)]) h'
      exact ⟨r, by simp only [partitionGo, hs, hk]; exact hr⟩

theorem evalGroupLoop_total (df : DataFrame) :
    ∀ (group : List (Nat × PhysicalExpr)) (st : ExecutionState),
      (∀ q ∈ group, q.2.sourceExpr.isSome = true) →
      ∃ r, evalGroupLoop df st group = some r
  | [], _, _ => ⟨(.ok [], []), rfl⟩
  | (i, e) :: rest, st, h => by
    obtain ⟨src, hs⟩ := Option.isSome_iff_exists.mp (h (i, e) (List.mem_cons_self _ _))
    have hs' : e.sourceExpr = some src := hs
    have h' := fun q hq => h q (List.mem_cons_of_mem _ hq)
    unfold evalGroupLoop
    rw [hs']
    dsimp only
    split
    · exact ⟨_, rfl⟩
    · obtain ⟨⟨res, tr⟩, hr2⟩ := evalGroupLoop_total df rest _ h'
      rw [hr2]
      cases res with
      | error err => exact ⟨_, rfl⟩
      | ok rs => exact ⟨_, rfl⟩

theorem evalWindowGroup_total (df : DataFrame) (parent : ExecutionState)
    (group : List (Nat × PhysicalExpr))
    (hq : ∀ q ∈ group, q.2.sourceExpr.isSome = true) :
    ∃ r, evalWindowGroup df parent group = some r := by
  obtain ⟨⟨res, tr⟩, hr⟩ := evalGroupLoop_total df group
    (if group.length == 1
      then (parent.split.insertHasWindowFunctionFlag).removeCacheWindowFlag
      else (parent.split.insertHasWindowFunctionFlag).insertCacheWindowFlag) hq
  refine ⟨(res,
    (if group.length == 1
      then (parent.split.insertHasWindowFunctionFlag).removeCacheWindowFlag
      else (parent.split.insertHasWindowFunctionFlag).insertCacheWindowFlag).cacheWindow ::
    tr), ?_⟩
  unfold evalWindowGroup
  dsimp only
  rw [hr]

theorem evalAllGroups_total (df : DataFrame) (state : ExecutionState) :
    ∀ ws : List (List Expr × List (Nat × PhysicalExpr)),
      (∀ b ∈ ws, ∀ q ∈ b.2, q.2.sourceExpr.isSome = true) →
      ∃ r, evalAllGroups df state ws = some r
  | [], _ => ⟨.ok [], rfl⟩
  | (k, group) :: rest, h => by
    obtain ⟨⟨res, tr⟩, hg⟩ := evalWindowGroup_total df state group
      (fun q hq => h (k, group) (List.mem_cons_self _ _) q hq)
    have h' := fun b hb => h b (List.mem_cons_of_mem _ hb)
    obtain ⟨r2, hr2⟩ := evalAllGroups_total df state rest h'
    cases res with
    | error err => exact ⟨.error err, by unfold evalAllGroups; rw [hg]⟩
    | ok rs =>
      cases r2 with
      | error err => exact ⟨.error err, by unfold evalAllGroups; rw [hg, hr2]⟩
      | ok more => exact ⟨.ok (rs ++ more), by unfold evalAllGroups; rw [hg, hr2]⟩

/-- C10: the window-aware evaluator unconditionally unwraps
`as_expression()`: it never panics when every expression exposes a
source tree, and it panics (modelled as `none`) whenever any expression
in the list exposes none. -/
theorem c10_as_expression_unwrapped (df : DataFrame) (state : ExecutionState)
    (exprs : List PhysicalExpr) :
    ((∀ p ∈ exprs, p.sourceExpr.isSome = true) →
      ∃ r, execute_projection_cached_window_fns df exprs state = some r) ∧
    ((∃ p ∈ exprs, p.sourceExpr = none) →
      execute_projection_cached_window_fns df exprs state = none) := by
  constructor
  · intro hall
    obtain ⟨⟨ws, os⟩, hpart⟩ := partitionGo_total exprs 0 [] [] hall
    have hinv := partitionGo_inv exprs 0 [] ws [] os hpart (fun b hb => by cases hb)
    have hsrcs : ∀ b ∈ ws, ∀ q ∈ b.2, q.2.sourceExpr.isSome = true := by
      intro b hb q hq
      obtain ⟨e, he, _⟩ := hinv b hb q hq
      rw [he]; rfl
    unfold execute_projection_cached_window_fns
    rw [show partitionWindows exprs = some (ws, os) from hpart]
    dsimp only
    cases hc : collectE os (fun en => (en.2.eval df state).map fun s => (en.1, s)) with
    | error e => exact ⟨.error e, rfl⟩
    | ok sel =>
      obtain ⟨gr, hgr⟩ := evalAllGroups_total df state ws hsrcs
      cases gr with
      | error e2 => exact ⟨.error e2, by rw [hgr]⟩
      | ok win =>
        exact ⟨.ok ((sortByIdx (sel ++ win)).map Prod.snd), by rw [hgr]⟩
  · rintro ⟨p, hp, hnone⟩
    unfold execute_projection_cached_window_fns
    rw [show partitionWindows exprs = none from
      partitionGo_none exprs 0 [] [] ⟨p, hp, hnone⟩]

/-- Witness for C10: a sourced list evaluates without panic; a list
containing a sourceless expression panics. -/
theorem c10_witness :
    (∃ r, execute_projection_cached_window_fns dfA [litPhys] stA = some r) ∧
    execute_projection_cached_window_fns dfA [noSrcPhys] stA = none :=
  ⟨(c10_as_expression_unwrapped dfA stA [litPhys]).1
      (fun p hp => by rcases List.mem_singleton.mp hp with rfl; rfl),
    (c10_as_expression_unwrapped dfA stA [noSrcPhys]).2
      ⟨noSrcPhys, List.mem_singleton_self _, rfl⟩⟩

theorem run_exprs_par_eq_seq (df : DataFrame) :
    ∀ (exprs : List PhysicalExpr) (st : ExecutionState),
      run_exprs_par df exprs st = run_exprs_seq df exprs st
  | [], _ => rfl
  | e :: rest, st => by
    have ih : collectE rest (fun x => x.eval df st) = run_exprs_seq df rest st :=
      run_exprs_par_eq_seq df rest st
    simp only [run_exprs_par, collectE, run_exprs_seq, ih]
    cases e.eval df st with
    | error err => rfl
    | ok s =>
      cases run_exprs_seq df rest st with
      | error err => rfl
      | ok ss => rfl

theorem windowKey_none_of_count_zero (e : Expr) (h : windowCount e = 0) :
    windowKey e = none := by
  unfold windowKey
  cases hf : e.nodesList.find? Expr.isWindow with
  | none => rfl
  | some x =>
    have hx := List.find?_some hf
    have hmem := List.mem_of_find?_eq_some hf
    unfold windowCount at h
    rw [List.length_eq_zero] at h
    have hfil : x ∈ e.nodesList.filter Expr.isWindow := List.mem_filter.mpr ⟨hmem, hx⟩
    rw [h] at hfil
    cases hfil

theorem partitionGo_no_windows :
    ∀ (l : List PhysicalExpr) (idx : Nat)
      (ws : List (List Expr × List (Nat × PhysicalExpr)))
      (os : List (Nat × PhysicalExpr)),
      (∀ p ∈ l, ∃ e, p.sourceExpr = some e ∧ windowKey e = none) →
      partitionGo l idx ws os = some (ws, os ++ tagFrom idx l)
  | [], _, ws, os, _ => by simp [partitionGo, tagFrom]
  | p :: rest, idx, ws, os, h => by
    obtain ⟨e, hs, hk⟩ := h p (List.mem_cons_self _ _)
    have h' := fun q hq => h q (List.mem_cons_of_mem _ hq)
    simp only [partitionGo, hs, hk]
    rw [partitionGo_no_windows rest (idx + 1) ws (os ++ [(idx + 1, p)]) h']
    simp [tagFrom, List.append_assoc]

theorem collectE_tagged (df : DataFrame) (state : ExecutionState) :
    ∀ (exprs : List PhysicalExpr) (idx : Nat),
      (∀ p ∈ exprs, ∃ s, p.eval df state = .ok s) →
      ∃ ss, run_exprs_seq df exprs state = .ok ss ∧
        collectE (tagFrom idx exprs)
          (fun en => (en.2.eval df state).map fun s => (en.1, s)) =
          .ok (tagSeries idx ss)
  | [], _, _ => ⟨[], rfl, rfl⟩
  | e :: rest, idx, h => by
    obtain ⟨s, hs⟩ := h e (List.mem_cons_self _ _)
    obtain ⟨ss, hseq, hcol⟩ := collectE_tagged df state rest (idx + 1)
      (fun q hq => h q (List.mem_cons_of_mem _ hq))
    refine ⟨s :: ss, ?_, ?_⟩
    · simp only [run_exprs_seq, hs, hseq]
    · simp only [tagFrom, collectE]
      rw [hcol]
      simp only [hs]
      simp [Except.map, tagSeries]

theorem tagSeries_gt :
    ∀ (ss : List Series) (n : Nat) (q : Nat × Series), q ∈ tagSeries n ss → n < q.1
  | [], n, q, h => by simp [tagSeries] at h
  | s :: ss, n, q, h => by
    simp only [tagSeries, List.mem_cons] at h
    rcases h with rfl | h2
    · simp
    · have := tagSeries_gt ss (n + 1) q h2
      omega

theorem sortByIdx_tagSeries :
    ∀ (ss : List Series) (n : Nat), sortByIdx (tagSeries n ss) = tagSeries n ss
  | [], _ => rfl
  | s :: ss, n => by
    simp only [tagSeries, sortByIdx]
    rw [sortByIdx_tagSeries ss (n + 1)]
    cases hss : tagSeries (n + 1) ss with
    | nil => rfl
    | cons y ys =>
      have hy : n + 1 < y.1 :=
        tagSeries_gt ss (n + 1) y (by rw [hss]; exact List.mem_cons_self _ _)
      simp only [insertByIdx]
      rw [if_pos (le_of_lt hy)]

theorem tagSeries_map_snd :
    ∀ (ss : List Series) (n : Nat), (tagSeries n ss).map Prod.snd = ss
  | [], _ => rfl
  | s :: ss, n => by simp [tagSeries, tagSeries_map_snd ss (n + 1)]

/-- C4: for expression lists without window nodes whose evaluations all
succeed, the parallel evaluator and the window-aware evaluator's plain
path both return exactly the columns of a fully sequential in-order
reference evaluation. -/
theorem c4_parallel_matches_sequential (df : DataFrame) (state : ExecutionState)
    (exprs : List PhysicalExpr)
    (hnw : ∀ p ∈ exprs, ∃ e, p.sourceExpr = some e ∧ windowCount e = 0)
    (hok : ∀ p ∈ exprs, ∃ s, p.eval df state = .ok s) :
    run_exprs_par df exprs state = run_exprs_seq df exprs state ∧
    execute_projection_cached_window_fns df exprs state =
      some (run_exprs_seq df exprs state) := by
  refine ⟨run_exprs_par_eq_seq df exprs state, ?_⟩
  have hkeys : ∀ p ∈ exprs, ∃ e, p.sourceExpr = some e ∧ windowKey e = none := by
    intro p hp
    obtain ⟨e, hs, hc⟩ := hnw p hp
    exact ⟨e, hs, windowKey_none_of_count_zero e hc⟩
  unfold execute_projection_cached_window_fns
  rw [show partitionWindows exprs = some ([], tagFrom 0 exprs) from by
    simpa using partitionGo_no_windows exprs 0 [] [] hkeys]
  dsimp only
  obtain ⟨ss, hseq, hcol⟩ := collectE_tagged df state exprs 0 hok
  rw [hcol]
  simp only [evalAllGroups]
  rw [hseq, List.append_nil, sortByIdx_tagSeries ss 0, tagSeries_map_snd ss 0]

/-- Witness for C4 at a concrete one-expression list. -/
theorem c4_witness :
    run_exprs_par dfA [litPhys] stA = run_exprs_seq dfA [litPhys] stA ∧
    execute_projection_cached_window_fns dfA [litPhys] stA =
      some (run_exprs_seq dfA [litPhys] stA) :=
  c4_parallel_matches_sequential dfA stA [litPhys]
    (fun p hp => by rcases List.mem_singleton.mp hp with rfl; exact ⟨.lit 1, rfl, rfl⟩)
    (fun p hp => by rcases List.mem_singleton.mp hp with rfl; exact ⟨⟨"t", [1]⟩, rfl⟩)

theorem scanLoop_ok (firstLen : Nat) :
    ∀ (l : List Series) (seen : List String) (dfHeight : Nat) (allEqual : Bool),
      (∀ s ∈ l, s.name ∉ seen) → (l.map Series.name).Nodup →
      scanLoop firstLen l seen dfHeight allEqual =
        .ok (l.foldl (fun a c => max a c.len) dfHeight,
          allEqual && l.all fun c => c.len == firstLen)
  | [], _, _, _, _, _ => by simp [scanLoop]
  | s :: rest, seen, dfHeight, allEqual, hseen, hnd => by
    have hs : s.name ∉ seen := hseen s (List.mem_cons_self _ _)
    have hnd' : (rest.map Series.name).Nodup := by
      rw [List.map_cons, List.nodup_cons] at hnd; exact hnd.2
    have hsn : s.name ∉ rest.map Series.name := by
      rw [List.map_cons, List.nodup_cons] at hnd; exact hnd.1
    have hseen' : ∀ c ∈ rest, c.name ∉ s.name :: seen := by
      intro c hc
      rw [List.mem_cons]
      rintro (hh | hh)
      · exact hsn (hh ▸ List.mem_map_of_mem Series.name hc)
      · exact hseen c (List.mem_cons_of_mem _ hc) hh
    simp only [scanLoop, if_neg hs]
    rw [scanLoop_ok firstLen rest (s.name :: seen) (max dfHeight s.len)
      (allEqual && (s.len == firstLen)) hseen' hnd']
    simp [Bool.and_assoc]

theorem scanLoop_dup (firstLen : Nat) :
    ∀ (pre : List Series) (s : Series) (post : List Series) (seen : List String)
      (dfHeight : Nat) (allEqual : Bool),
      (∀ c ∈ pre, c.name ∉ seen) → (pre.map Series.name).Nodup →
      (s.name ∈ seen ∨ s.name ∈ pre.map Series.name) →
      scanLoop firstLen (pre ++ s :: post) seen dfHeight allEqual =
        .error (.duplicate s.name)
  | [], s, post, seen, dfHeight, allEqual, _, _, hdup => by
    rcases hdup with hd | hd
    · simp only [List.nil_append, scanLoop, if_pos hd]
    · simp at hd
  | c :: pre, s, post, seen, dfHeight, allEqual, hseen, hnd, hdup => by
    have hc : c.name ∉ seen := hseen c (List.mem_cons_self _ _)
    have hnd' : (pre.map Series.name).Nodup := by
      rw [List.map_cons, List.nodup_cons] at hnd; exact hnd.2
    have hcn : c.name ∉ pre.map Series.name := by
      rw [List.map_cons, List.nodup_cons] at hnd; exact hnd.1
    have hseen' : ∀ d ∈ pre, d.name ∉ c.name :: seen := by
      intro d hdm
      rw [List.mem_cons]
      rintro (hh | hh)
      · exact hcn (hh ▸ List.mem_map_of_mem Series.name hdm)
      · exact hseen d (List.mem_cons_of_mem _ hdm) hh
    have hdup' : s.name ∈ c.name :: seen ∨ s.name ∈ pre.map Series.name := by
      rcases hdup with hd | hd
      · exact Or.inl (List.mem_cons_of_mem _ hd)
      · rw [List.map_cons, List.mem_cons] at hd
        rcases hd with hd | hd
        · exact Or.inl (hd ▸ List.mem_cons_self _ _)
        · exact Or.inr hd
    rw [List.cons_append]
    simp only [scanLoop, if_neg hc]
    exact scanLoop_dup firstLen pre s post (c.name :: seen) _ _ hseen' hnd' hdup'

theorem collectE_ok {α β : Type} (f : α → Except PError β) (g : α → β) :
    ∀ l : List α, (∀ a ∈ l, f a = .ok (g a)) → collectE l f = .ok (l.map g)
  | [], _ => rfl
  | a :: as, h => by
    simp only [collectE, h a (List.mem_cons_self _ _),
      collectE_ok f g as (fun b hb => h b (List.mem_cons_of_mem _ hb)), List.map_cons]

theorem collectE_error {α β : Type} (f : α → Except PError β) (err : PError) :
    ∀ (pre : List α) (x : α) (post : List α),
      (∀ a ∈ pre, ∃ b, f a = .ok b) → f x = .error err →
      collectE (pre ++ x :: post) f = .error err
  | [], x, post, _, hx => by simp [collectE, hx]
  | a :: pre, x, post, h, hx => by
    obtain ⟨b, hb⟩ := h a (List.mem_cons_self _ _)
    rw [List.cons_append]
    simp only [collectE, hb,
      collectE_error f err pre x post (fun c hc => h c (List.mem_cons_of_mem _ hc)) hx]

theorem expandOne_ok (dfHeight : Nat) (s : Series) (h : broadcastOk dfHeight s) :
    expandOne dfHeight s = .ok (broadcastSpec dfHeight s) := by
  unfold expandOne broadcastSpec
  by_cases hb : s.len = 1 ∧ 1 < dfHeight
  · rw [if_pos (show (s.len == 1 && decide (dfHeight > 1)) = true by
      simp [hb.1, hb.2]), if_pos hb]
  · have h2 : s.len = dfHeight ∨ s.len = 0 := by
      rcases h with h | h | h
      · exact absurd h hb
      · exact Or.inl h
      · exact Or.inr h
    have hcond : ¬ ((s.len == 1 && decide (dfHeight > 1)) = true) := by
      intro hcc
      simp only [Bool.and_eq_true, beq_iff_eq, decide_eq_true_eq] at hcc
      exact hb ⟨hcc.1, hcc.2⟩
    rw [if_neg hcond, if_pos (show (s.len == dfHeight || s.len == 0) = true by
      rcases h2 with h2 | h2 <;> simp [h2]), if_neg hb]

theorem expandOne_bad (dfHeight : Nat) (s : Series) (h : ¬ broadcastOk dfHeight s) :
    expandOne dfHeight s = .error (.lengthMismatch s.len dfHeight) := by
  unfold expandOne
  have h1 : ¬ ((s.len == 1 && decide (dfHeight > 1)) = true) := by
    intro hc
    simp only [Bool.and_eq_true, beq_iff_eq, decide_eq_true_eq] at hc
    exact h (Or.inl ⟨hc.1, hc.2⟩)
  have h2 : ¬ ((s.len == dfHeight || s.len == 0) = true) := by
    intro hc
    simp only [Bool.or_eq_true, beq_iff_eq] at hc
    rcases hc with hc | hc
    · exact h (Or.inr (Or.inl hc))
    · exact h (Or.inr (Or.inr hc))
  rw [if_neg h1, if_neg h2]

theorem check_expand_reduce (s0 : Series) (rest : List Series) (zl : Bool)
    (dfHeight : Nat) (allb : Bool)
    (hscan : scanLoop s0.len (s0 :: rest) [] 0 true = .ok (dfHeight, allb)) :
    check_expand_literals (s0 :: rest) zl =
      some
        (match (if !allb then collectE (s0 :: rest) (expandOne dfHeight)
                else .ok (s0 :: rest)) with
         | .error e => .error e
         | .ok cols =>
           if zl then
             match (cols.map Series.len).min? with
             | some m => .ok ⟨cols.map fun s => ⟨s.name, s.values.take m⟩⟩
             | none => .ok ⟨cols⟩
           else .ok ⟨cols⟩) := by
  simp only [check_expand_literals]
  rw [hscan]

/-- C6: the broadcasting behaviour of `check_expand_literals`: with all
lengths equal nothing is broadcast; otherwise every length-1 column is
expanded by value repetition to the maximum length (when that maximum
exceeds 1), columns of matching or zero length pass through, and the
first column of any other length produces a length-mismatch error
naming that length and the maximum. -/
theorem c6_check_expand_literals_broadcast (s0 : Series) (rest : List Series)
    (hnodup : ((s0 :: rest).map Series.name).Nodup) :
    ((∀ c ∈ s0 :: rest, c.len = s0.len) →
      check_expand_literals (s0 :: rest) false = some (.ok ⟨s0 :: rest⟩)) ∧
    (¬ (∀ c ∈ s0 :: rest, c.len = s0.len) →
      ((∀ c ∈ s0 :: rest, broadcastOk (maxLen (s0 :: rest)) c) →
        check_expand_literals (s0 :: rest) false =
          some (.ok ⟨(s0 :: rest).map (broadcastSpec (maxLen (s0 :: rest)))⟩)) ∧
      (∀ (pre : List Series) (s : Series) (post : List Series),
        s0 :: rest = pre ++ s :: post →
        (∀ c ∈ pre, broadcastOk (maxLen (s0 :: rest)) c) →
        ¬ broadcastOk (maxLen (s0 :: rest)) s →
        check_expand_literals (s0 :: rest) false =
          some (.error (.lengthMismatch s.len (maxLen (s0 :: rest)))))) := by
  have hscan : scanLoop s0.len (s0 :: rest) [] 0 true =
      .ok (maxLen (s0 :: rest), (s0 :: rest).all fun c => c.len == s0.len) := by
    simpa [maxLen] using scanLoop_ok s0.len (s0 :: rest) [] 0 true (by simp) hnodup
  refine ⟨?_, ?_⟩
  · intro hall
    have hallb : ((s0 :: rest).all fun c => c.len == s0.len) = true := by
      rw [List.all_eq_true]
      intro x hx
      simpa using hall x hx
    rw [check_expand_reduce s0 rest false _ _ hscan, hallb]
    rfl
  · intro hne
    have hallb : ((s0 :: rest).all fun c => c.len == s0.len) = false := by
      rw [List.all_eq_false]
      push_neg at hne
      obtain ⟨c, hc, hcne⟩ := hne
      exact ⟨c, hc, by simpa using hcne⟩
    constructor
    · intro hgood
      have hcol : collectE (s0 :: rest) (expandOne (maxLen (s0 :: rest))) =
          .ok ((s0 :: rest).map (broadcastSpec (maxLen (s0 :: rest)))) :=
        collectE_ok _ _ _ (fun c hc => expandOne_ok _ c (hgood c hc))
      rw [check_expand_reduce s0 rest false _ _ hscan, hallb, hcol]
      rfl
    · intro pre s post hsplit hpregood hsbad
      rw [check_expand_reduce s0 rest false _ _ hscan, hallb]
      rw [hsplit] at hpregood hsbad
      have hmax : maxLen (s0 :: rest) = maxLen (pre ++ s :: post) := by rw [hsplit]
      rw [hmax]
      have hcol : collectE (pre ++ s :: post) (expandOne (maxLen (pre ++ s :: post))) =
          .error (.lengthMismatch s.len (maxLen (pre ++ s :: post))) :=
        collectE_error _ _ pre s post
          (fun c hc => ⟨_, expandOne_ok _ c (hpregood c hc)⟩)
          (expandOne_bad _ s hsbad)
      rw [show (s0 :: rest : List Series) = pre ++ s :: post from hsplit, hcol]
      rfl

/-- Witness for C6: a length-2 column next to a length-1 column; the
length-1 column is broadcast to two rows by value repetition. -/
theorem c6_witness :
    check_expand_literals [⟨"a", [1, 2]⟩, ⟨"b", [5]⟩] false =
      some (.ok ⟨[⟨"a", [1, 2]⟩, ⟨"b", [5, 5]⟩]⟩) :=
  ((c6_check_expand_literals_broadcast ⟨"a", [1, 2]⟩ [⟨"b", [5]⟩] (by decide)).2
    (by decide)).1 (by decide)

/-- C7: on an input with a repeated column name and a reconcilable
length disagreement, `check_expand_literals` fails with the
duplicate-name error naming the first repeated identifier — the name
check runs before any broadcasting. -/
theorem c7_duplicate_name_before_broadcast (p0 : Series) (pre : List Series)
    (s : Series) (post : List Series) (zl : Bool)
    (hpname : ((p0 :: pre).map Series.name).Nodup)
    (hdup : s.name ∈ (p0 :: pre).map Series.name)
    (hlen : ¬ (∀ c ∈ p0 :: (pre ++ s :: post), c.len = p0.len) ∧
      ∀ c ∈ p0 :: (pre ++ s :: post),
        broadcastOk (maxLen (p0 :: (pre ++ s :: post))) c) :
    check_expand_literals (p0 :: (pre ++ s :: post)) zl =
      some (.error (.duplicate s.name)) := by
  have hscan : scanLoop p0.len ((p0 :: pre) ++ s :: post) [] 0 true =
      .error (.duplicate s.name) :=
    scanLoop_dup p0.len (p0 :: pre) s post [] 0 true (by simp) hpname (Or.inr hdup)
  rw [List.cons_append] at hscan
  simp only [check_expand_literals]
  rw [hscan]

/-- Witness for C7: two columns both named `a`, of lengths 2 and 1; the
result is the duplicate-name error, not a length mismatch and not a
table. -/
theorem c7_witness :
    check_expand_literals [⟨"a", [1, 2]⟩, ⟨"a", [5]⟩] true =
      some (.error (.duplicate "a")) :=
  c7_duplicate_name_before_broadcast ⟨"a", [1, 2]⟩ [] ⟨"a", [5]⟩ [] true
    (by decide) (by decide) (by decide)

end Polars
